import Mathlib

/-!
Shallow embedding of the model-selection core of the AIND sign-language
recognizer (source files `my_model_selectors.py` and `my_recognizer.py`).

The external HMM fitting/scoring engine (hmmlearn `GaussianHMM`) is an opaque
collaborator; it is modelled as an oracle supplying a fallible `fit` and a
fallible `score` operation together with an abstract real logarithm.  Scores
and log-likelihoods are modelled as rationals (the floating-point values of
the source are abstracted to exact arithmetic; all claims under study are
structural, about comparisons and control flow, not about rounding).

Python exceptions are modelled with `Except Unit`; the source's
`try ... except: pass` blocks become explicit catches (`pyTry`).  Python
dictionaries (which iterate in insertion order) are modelled as association
lists.
-/

namespace ASL

/-- A data matrix (numpy 2-D array): a list of observation vectors. -/
abbrev Mat := List (List ℚ)

/-- A sequence collection for one word: a list of variable-length sequences,
each a list of fixed-dimension feature vectors. -/
abbrev Seqs := List (List (List ℚ))

/-- Result of a Python expression that may raise an exception. -/
abbrev PyResult (β : Type) := Except Unit β

/-- The external HMM fitting/scoring capability (hmmlearn `GaussianHMM`),
kept abstract: `fit random_state num_states X lengths` yields a fitted model
or fails (non-convergence, singular covariance, ...); `score m X lengths`
yields a log-likelihood or fails; `log` stands for `np.log` on the row count. -/
structure HMMOracle (α : Type) where
  fit : Nat → Nat → Mat → List Nat → PyResult α
  score : α → Mat → List Nat → PyResult ℚ
  log : Nat → ℚ

/-- `try r except: pass`-style fallback: the value of `r`, or `dflt` if it raised. -/
def pyTry {β : Type} (r : PyResult β) (dflt : β) : β :=
  match r with
  | .ok v => v
  | .error _ => dflt

/-- Python dict indexing `d[k]` on an association list (KeyError = failure). -/
def pyLookup {β : Type} (d : List (String × β)) (k : String) : PyResult β :=
  match d.find? (fun p => p.1 == k) with
  | some p => .ok p.2
  | none => .error ()

/-- The configuration attributes of `ModelSelector.__init__`
(`n_constant=3, min_n_components=2, max_n_components=10, random_state=14`). -/
structure Config where
  n_constant : Nat
  min_n_components : Nat
  max_n_components : Nat
  random_state : Nat

/-- The data attributes of a `ModelSelector` instance: the shared
word-to-sequences dict (`self.words`), the shared word-to-(X, lengths) dict
(`self.hwords`), this word's sequence collection (`self.sequences`), the word
itself (`self.this_word`) and this word's flattened representation
(`self.X`, `self.lengths`).  Only `X` and `lengths` are ever reassigned by the
source (inside `SelectorCV.select`). -/
structure SelectorState (α : Type) where
  words : List (String × Seqs)
  hwords : List (String × (Mat × List Nat))
  sequences : Seqs
  this_word : String
  X : Mat
  lengths : List Nat

/-- The candidate state counts enumerated by the searching selectors:
`range(self.min_n_components, self.max_n_components)`. -/
def candidates (cfg : Config) : List Nat :=
  List.range' cfg.min_n_components (cfg.max_n_components - cfg.min_n_components)

/-- `ModelSelector.base_model`: attempt to fit a model with `num_states`
states on `(X, lengths)`; any exception is caught and `None` returned.
(The `verbose` printing has no effect on control flow and is dropped.) -/
def base_model {α : Type} (o : HMMOracle α) (random_state num_states : Nat)
    (X : Mat) (lengths : List Nat) : Option α :=
  (o.fit random_state num_states X lengths).toOption

/-- `SelectorConstant.select`: fit exactly one model with `n_constant` states. -/
def SelectorConstant.select {α : Type} (o : HMMOracle α) (cfg : Config)
    (st : SelectorState α) : Option α × SelectorState α :=
  (base_model o cfg.random_state cfg.n_constant st.X st.lengths, st)

/-- Body of the `try` in the loop of `SelectorBIC.select` for one candidate:
fit (failures already swallowed by `base_model`), then score (an exception here
propagates to the `except: pass`), then compute
`BIC = -2*logL + p*log N` with `p = num_states * (X.shape[1]*2 + 1)` and
`N = len(X)`, and update the running `(best_score, best_model)` pair
(`none` plays the role of the initial `(inf, None)`). -/
def bicTryBody {α : Type} (o : HMMOracle α) (cfg : Config) (X : Mat)
    (lengths : List Nat) (acc : Option (ℚ × α)) (num_states : Nat) :
    PyResult (Option (ℚ × α)) :=
  match base_model o cfg.random_state num_states X lengths with
  | none => .ok acc
  | some m =>
    match o.score m X lengths with
    | .error e => .error e
    | .ok logL =>
      let p : ℚ := (num_states * ((X.headD []).length * 2 + 1) : Nat)
      let logN : ℚ := o.log X.length
      let bic : ℚ := -2 * logL + p * logN
      match acc with
      | none => .ok (some (bic, m))
      | some (b, bm) => if b > bic then .ok (some (bic, m)) else .ok (some (b, bm))

/-- `SelectorBIC.select`: enumerate the candidate range, keep the model with
the lowest BIC score among the candidates whose `try` body completed;
return `None` when no candidate ever set `best_model`. -/
def SelectorBIC.select {α : Type} (o : HMMOracle α) (cfg : Config)
    (st : SelectorState α) : Option α × SelectorState α :=
  (((candidates cfg).foldl
      (fun acc k => pyTry (bicTryBody o cfg st.X st.lengths acc k) acc)
      none).map Prod.snd,
   st)

/-! ## The recognizer (`my_recognizer.py`) -/

/-- `compute_log_likelihood` in `recognize`: score the model on the item's
data, mapping any exception to `float('-inf')` (modelled as `⊥ : WithBot ℚ`). -/
def compute_log_likelihood {α : Type} (o : HMMOracle α) (m : α) (X : Mat)
    (lengths : List Nat) : WithBot ℚ :=
  match o.score m X lengths with
  | .ok v => (v : WithBot ℚ)
  | .error _ => ⊥

/-- The dict comprehension
`{ word : compute_log_likelihood(model, X, lengths) for word, model in models.items() }`:
one ScoreRecord, in the model mapping's iteration order. -/
def scoreRecord {α : Type} (o : HMMOracle α) (models : List (String × α))
    (X : Mat) (lengths : List Nat) : List (String × WithBot ℚ) :=
  models.map (fun p => (p.1, compute_log_likelihood o p.2 X lengths))

/-- `max(log_likelihood, key=log_likelihood.get)`: the first key attaining the
maximal value (Python's `max` keeps the current best on ties); raises
`ValueError` on an empty dict. -/
def pyMaxKey (l : List (String × WithBot ℚ)) : PyResult String :=
  match l with
  | [] => .error ()
  | a :: rest => .ok (rest.foldl (fun best p => if best.2 < p.2 then p else best) a).1

/-- `recognize(models, test_set)`: for each test item in order, build the
ScoreRecord over all models and guess the word with the maximal score;
the two output lists are in test-set order. -/
def recognize {α : Type} (o : HMMOracle α) (models : List (String × α)) :
    List (Mat × List Nat) → PyResult (List (List (String × WithBot ℚ)) × List String)
  | [] => .ok ([], [])
  | (X, lengths) :: rest =>
    let ll := scoreRecord o models X lengths
    match pyMaxKey ll with
    | .error e => .error e
    | .ok guess =>
      match recognize o models rest with
      | .error e => .error e
      | .ok (ps, gs) => .ok (ll :: ps, guess :: gs)

/-! ## The DIC selector (`SelectorDIC.select`) -/

/-- The inner competitor loop of `SelectorDIC.select`:
`for word in filter(lambda w: w != self.this_word, self.words): X, lengths = self.hwords[word]; scores += hmm_model.score(X, lengths)`.
Any KeyError or scoring exception propagates (to the `except: pass`). -/
def dicCompetitorSum {α : Type} (o : HMMOracle α) (m : α)
    (hwords : List (String × (Mat × List Nat))) : List String → PyResult ℚ
  | [] => .ok 0
  | w :: ws =>
    match pyLookup hwords w with
    | .error e => .error e
    | .ok xl =>
      match o.score m xl.1 xl.2 with
      | .error e => .error e
      | .ok s =>
        match dicCompetitorSum o m hwords ws with
        | .error e => .error e
        | .ok rest => .ok (s + rest)

/-- Body of the `try` in the loop of `SelectorDIC.select` for one candidate.
`M = len(self.words)`; the division `scores / (M - 1)` raises
ZeroDivisionError exactly when `M = 1`.  Faithful to the source, the
comparison is made against `best_score` (initially `float('-inf')`) which the
source never reassigns, and only `best_model` is updated
(`best_model = dic_score` is immediately overwritten by `best_model = hmm_model`). -/
def dicTryBody {α : Type} (o : HMMOracle α) (cfg : Config) (st : SelectorState α)
    (acc : WithBot ℚ × Option α) (num_states : Nat) :
    PyResult (WithBot ℚ × Option α) :=
  match base_model o cfg.random_state num_states st.X st.lengths with
  | none => .ok acc
  | some m =>
    match o.score m st.X st.lengths with
    | .error e => .error e
    | .ok ownScore =>
      match dicCompetitorSum o m st.hwords
          ((st.words.map Prod.fst).filter (fun w => w != st.this_word)) with
      | .error e => .error e
      | .ok scores =>
        if ((st.words.length : ℤ) - 1 : ℤ) = 0 then .error ()
        else
          let dic : ℚ := ownScore - scores / (((st.words.length : ℤ) - 1 : ℤ) : ℚ)
          if acc.1 < (dic : WithBot ℚ) then .ok (acc.1, some m) else .ok acc

/-- `SelectorDIC.select`: enumerate the candidate range with the (buggy)
best-tracking of the source; exceptions in a candidate's body are swallowed. -/
def SelectorDIC.select {α : Type} (o : HMMOracle α) (cfg : Config)
    (st : SelectorState α) : Option α × SelectorState α :=
  (((candidates cfg).foldl
      (fun acc k => pyTry (dicTryBody o cfg st acc k) acc)
      (⊥, none)).2,
   st)

/-! ## The CV selector (`SelectorCV.select`) -/

/-- Modelled from the spec: the FlattenedRepresentation of the sub-collection
selected by an index list (helper `combine_sequences` of the external data
layer, §3 of the spec): the selected sequences' rows concatenated in index
order, with their per-sequence lengths. -/
def combine_sequences (idxs : List Nat) (sequences : Seqs) : Mat × List Nat :=
  ((idxs.map (fun i => sequences.getD i [])).flatten,
   idxs.map (fun i => (sequences.getD i []).length))

/-- Modelled from the spec: the deterministic, non-shuffled 3-fold split of
`n` sequences produced by the external partitioning utility
(`KFold(n_splits=3, shuffle=False)`, §4.5 of the spec): each held-out block is
a run of consecutive indices, the first `n % 3` blocks one element larger, and
the training indices are the complement in increasing order. -/
def kfold3 (n : Nat) : List (List Nat × List Nat) :=
  (List.range 3).map (fun i =>
    let base := n / 3
    let r := n % 3
    let sz := base + (if i < r then 1 else 0)
    let start := i * base + min i r
    let te := List.range' start sz
    ((List.range n).filter (fun j => !(te.contains j)), te))

/-- The fold loop of `SelectorCV.select` for one candidate: each iteration
reassigns `self.X, self.lengths` to the training-fold representation, fits on
it, scores the held-out fold, and updates the running mean / best pair.
A fit failure skips the fold; a scoring exception aborts the remaining folds
(it propagates to the `except: pass`), keeping all state mutations made so
far.  Returns the final `(X, lengths)`, the accumulated `scores` list and the
`(best_score, best_model)` pair. -/
def cvFoldLoop {α : Type} (o : HMMOracle α) (seed num_states : Nat)
    (sequences : Seqs) : List (List Nat × List Nat) → Mat × List Nat →
    List ℚ → WithBot ℚ × Option α →
    (Mat × List Nat) × List ℚ × (WithBot ℚ × Option α)
  | [], xl, scores, best => (xl, scores, best)
  | (tr, te) :: rest, _, scores, best =>
    let xl := combine_sequences tr sequences
    let tst := combine_sequences te sequences
    match base_model o seed num_states xl.1 xl.2 with
    | none => cvFoldLoop o seed num_states sequences rest xl scores best
    | some m =>
      match o.score m tst.1 tst.2 with
      | .error _ => (xl, scores, best)
      | .ok s =>
        let scores2 := scores ++ [s]
        let mean : ℚ := scores2.sum / (scores2.length : ℚ)
        let best2 := if best.1 < (mean : WithBot ℚ)
          then ((mean : WithBot ℚ), some m) else best
        cvFoldLoop o seed num_states sequences rest xl scores2 best2

/-- One candidate iteration of `SelectorCV.select`: the 3-fold split path when
the word has more than 2 sequences, otherwise the no-split fallback (fit on
the full `self.X, self.lengths` and score the same data).  The accumulator
carries the mutable `(self.X, self.lengths)` pair and `(best_score, best_model)`. -/
def cvCandidate {α : Type} (o : HMMOracle α) (cfg : Config) (sequences : Seqs)
    (acc : (Mat × List Nat) × (WithBot ℚ × Option α)) (num_states : Nat) :
    (Mat × List Nat) × (WithBot ℚ × Option α) :=
  if 2 < sequences.length then
    let r := cvFoldLoop o cfg.random_state num_states sequences
      (kfold3 sequences.length) acc.1 [] acc.2
    (r.1, r.2.2)
  else
    match base_model o cfg.random_state num_states acc.1.1 acc.1.2 with
    | none => acc
    | some m =>
      match o.score m acc.1.1 acc.1.2 with
      | .error _ => acc
      | .ok s =>
        if acc.2.1 < (s : WithBot ℚ) then (acc.1, ((s : WithBot ℚ), some m)) else acc

/-- `SelectorCV.select`: enumerate the candidate range, threading the mutated
`(self.X, self.lengths)` through; return the best model and the final state. -/
def SelectorCV.select {α : Type} (o : HMMOracle α) (cfg : Config)
    (st : SelectorState α) : Option α × SelectorState α :=
  let r := (candidates cfg).foldl (cvCandidate o cfg st.sequences)
    ((st.X, st.lengths), (⊥, none))
  (r.2.2, { st with X := r.1.1, lengths := r.1.2 })

/-! ## Specification-side definitions

The following definitions restate, in the words of the specification and the
claims, what the selectors and the recognizer are supposed to compute; the
claim theorems compare them with the source-side definitions above. -/

/-- One BIC candidate attempt as the spec words it: fit a model with `k`
states on the word's data, score it on the same data, and form
`-2*logL + p*ln N` with `p = k*(2*d + 1)`, `d` the feature dimensionality and
`N` the total number of observation vectors; `none` when fitting or scoring
fails. -/
def bicAttempt {α : Type} (o : HMMOracle α) (cfg : Config) (X : Mat)
    (lengths : List Nat) (k : Nat) : Option (ℚ × α) :=
  match base_model o cfg.random_state k X lengths with
  | none => none
  | some m =>
    match o.score m X lengths with
    | .error _ => none
    | .ok logL =>
      some (-2 * logL + ((k * (2 * (X.headD []).length + 1) : Nat) : ℚ) * o.log X.length, m)

/-- The first entry of a list attaining the least first component
(`none` on the empty list). -/
def leastBy {α : Type} : List (ℚ × α) → Option (ℚ × α)
  | [] => none
  | x :: xs => some (xs.foldl (fun b p => if p.1 < b.1 then p else b) x)

/-- The spec's concrete scenario for `min=2, max=4`: attempt state counts 2
and 3 only and keep the model with the lower BIC score (earlier candidate on a
tie), `none` when both attempts fail. -/
def bicBestOfTwo {α : Type} (o : HMMOracle α) (cfg : Config) (X : Mat)
    (lengths : List Nat) : Option α :=
  match bicAttempt o cfg X lengths 2, bicAttempt o cfg X lengths 3 with
  | none, none => none
  | some p, none => some p.2
  | none, some q => some q.2
  | some p, some q => if q.1 < p.1 then some q.2 else some p.2

/-- The DIC score of one candidate as the claim words it:
`ownScore - (sum of scores on all other words' data) / (M - 1)`;
`none` when fitting, scoring or the division fails. -/
def dicScoreSpec {α : Type} (o : HMMOracle α) (cfg : Config)
    (st : SelectorState α) (k : Nat) : Option ℚ :=
  match base_model o cfg.random_state k st.X st.lengths with
  | none => none
  | some m =>
    match o.score m st.X st.lengths,
        dicCompetitorSum o m st.hwords
          ((st.words.map Prod.fst).filter (fun w => w != st.this_word)) with
    | .ok own, .ok comp =>
      if ((st.words.length : ℤ) - 1 : ℤ) = 0 then none
      else some (own - comp / (((st.words.length : ℤ) - 1 : ℤ) : ℚ))
    | _, _ => none

/-- The first key of a score record achieving the maximal value
(the claim's description of the guess). -/
def firstArgmax (l : List (String × WithBot ℚ)) : Option String :=
  (l.find? (fun p => decide (∀ q ∈ l, q.2 ≤ p.2))).map Prod.fst

/-- Total version of `pyMaxKey` (meaningful on non-empty records). -/
def pyMaxKeyD (l : List (String × WithBot ℚ)) : String :=
  match l with
  | [] => ""
  | a :: rest => (rest.foldl (fun best p => if best.2 < p.2 then p else best) a).1

/-- The no-split fallback path of the CV selector, as the spec words it:
for every candidate, fit on the full collection and score the full collection,
tracking the best score; the word's flattened representation is never touched. -/
def cvNoSplitSelect {α : Type} (o : HMMOracle α) (cfg : Config) (X : Mat)
    (lengths : List Nat) : Option α :=
  ((candidates cfg).foldl
    (fun best k =>
      match base_model o cfg.random_state k X lengths with
      | none => best
      | some m =>
        match o.score m X lengths with
        | .error _ => best
        | .ok s => if best.1 < (s : WithBot ℚ) then ((s : WithBot ℚ), some m) else best)
    (⊥, none)).2

/-- The fold traversal of the CV split path for one candidate, without the
mutable state: fit on each training fold; a fit failure skips the fold; a
held-out scoring failure abandons the remaining folds of this candidate,
keeping the updates made so far; successful folds append to `scores` and the
running mean is compared against the best. -/
def cvSplitFolds {α : Type} (o : HMMOracle α) (seed num_states : Nat)
    (sequences : Seqs) : List (List Nat × List Nat) → List ℚ →
    WithBot ℚ × Option α → WithBot ℚ × Option α
  | [], _, best => best
  | (tr, te) :: rest, scores, best =>
    let xl := combine_sequences tr sequences
    let tst := combine_sequences te sequences
    match base_model o seed num_states xl.1 xl.2 with
    | none => cvSplitFolds o seed num_states sequences rest scores best
    | some m =>
      match o.score m tst.1 tst.2 with
      | .error _ => best
      | .ok s =>
        let scores2 := scores ++ [s]
        let mean : ℚ := scores2.sum / (scores2.length : ℚ)
        let best2 := if best.1 < (mean : WithBot ℚ)
          then ((mean : WithBot ℚ), some m) else best
        cvSplitFolds o seed num_states sequences rest scores2 best2

/-- The split path of the CV selector over the whole candidate range: it
depends only on the word's sequence collection (3-fold deterministic split),
not on the selector's mutable flattened representation. -/
def cvSplitSelect {α : Type} (o : HMMOracle α) (cfg : Config)
    (sequences : Seqs) : Option α :=
  ((candidates cfg).foldl
    (fun best k => cvSplitFolds o cfg.random_state k sequences
      (kfold3 sequences.length) [] best)
    (⊥, none)).2

/-- The CV fold traversal as claim C5 words it: on ANY failure (fit or
held-out scoring) the fold's contribution is skipped and the traversal
continues with the next fold. -/
def cvSplitFoldsClaimed {α : Type} (o : HMMOracle α) (seed num_states : Nat)
    (sequences : Seqs) : List (List Nat × List Nat) → List ℚ →
    WithBot ℚ × Option α → WithBot ℚ × Option α
  | [], _, best => best
  | (tr, te) :: rest, scores, best =>
    let xl := combine_sequences tr sequences
    let tst := combine_sequences te sequences
    match base_model o seed num_states xl.1 xl.2 with
    | none => cvSplitFoldsClaimed o seed num_states sequences rest scores best
    | some m =>
      match o.score m tst.1 tst.2 with
      | .error _ => cvSplitFoldsClaimed o seed num_states sequences rest scores best
      | .ok s =>
        let scores2 := scores ++ [s]
        let mean : ℚ := scores2.sum / (scores2.length : ℚ)
        let best2 := if best.1 < (mean : WithBot ℚ)
          then ((mean : WithBot ℚ), some m) else best
        cvSplitFoldsClaimed o seed num_states sequences rest scores2 best2

/-- The CV selection as claim C5 states it (split path with per-fold
failure-skipping when more than 2 sequences, no-split fallback otherwise). -/
def cvSelectClaimed {α : Type} (o : HMMOracle α) (cfg : Config)
    (sequences : Seqs) (X : Mat) (lengths : List Nat) : Option α :=
  if 2 < sequences.length then
    ((candidates cfg).foldl
      (fun best k => cvSplitFoldsClaimed o cfg.random_state k sequences
        (kfold3 sequences.length) [] best)
      (⊥, none)).2
  else cvNoSplitSelect o cfg X lengths

/-- The last fold the CV fold loop processes for one candidate: the loop
walks the folds in order and stops early exactly when a fitted model's
held-out scoring fails. -/
def cvLastFold {α : Type} (o : HMMOracle α) (seed num_states : Nat)
    (sequences : Seqs) : List (List Nat × List Nat) → Option (List Nat × List Nat)
  | [] => none
  | f :: rest =>
    let xl := combine_sequences f.1 sequences
    let tst := combine_sequences f.2 sequences
    let aborts :=
      match base_model o seed num_states xl.1 xl.2 with
      | none => false
      | some m =>
        match o.score m tst.1 tst.2 with
        | .error _ => true
        | .ok _ => false
    if aborts then some f
    else
      match cvLastFold o seed num_states sequences rest with
      | none => some f
      | some g => some g

/-- The comparison step of Python's `max(..., key=...)`: keep the current
best unless the new element's value is strictly greater. -/
def maxStep (best p : String × WithBot ℚ) : String × WithBot ℚ :=
  if best.2 < p.2 then p else best

/-- Merging one successful BIC attempt into the running least pair
(`none` = nothing seen yet; keep the earlier pair on a tie). -/
def leastStep {α : Type} (b : Option (ℚ × α)) (p : ℚ × α) : Option (ℚ × α) :=
  match b with
  | none => some p
  | some q => if p.1 < q.1 then some p else some q

/-! ## Concrete instances used by witnesses and counterexamples -/

/-- Oracle whose fit always succeeds (the model is its state count) and whose
score is the model number; `np.log` is abstracted to the constant 1. -/
def exOracle : HMMOracle Nat :=
  ⟨fun _ k _ _ => .ok k, fun m _ _ => .ok (m : ℚ), fun _ => 1⟩

/-- Oracle whose fit always succeeds but whose scoring always fails. -/
def exOracleScoreFail : HMMOracle Nat :=
  ⟨fun _ k _ _ => .ok k, fun _ _ _ => .error (), fun _ => 0⟩

/-- Oracle for the DIC scenario: every fit succeeds; the 2-state model scores
100 on word A's own data and 0 elsewhere; the 3-state model scores 0
everywhere. -/
def exOracleDIC : HMMOracle Nat :=
  ⟨fun _ k _ _ => .ok k,
   fun m X _ => if m == 2 && X == [[(0 : ℚ)]] then .ok 100 else .ok 0,
   fun _ => 0⟩

/-- Oracle for the CV scenario: every fit succeeds; scoring fails exactly on
the data `[[0]]` and `[[2]]` and yields 5 elsewhere. -/
def exOracleCV : HMMOracle Nat :=
  ⟨fun _ k _ _ => .ok k,
   fun _ X _ => if X == [[(0 : ℚ)]] || X == [[(2 : ℚ)]] then .error () else .ok 5,
   fun _ => 0⟩

/-- Oracle for the recognizer: model 1 always fails to score, every other
model scores its own number. -/
def exOracleRecog : HMMOracle Nat :=
  ⟨fun _ k _ _ => .ok k,
   fun m _ _ => if m == 1 then .error () else .ok (m : ℚ),
   fun _ => 0⟩

/-- The configuration of the spec's concrete scenario: `min=2`, `max=4`. -/
def cfg24 : Config := ⟨3, 2, 4, 14⟩

/-- A configuration with the single candidate state count 2. -/
def cfg23 : Config := ⟨3, 2, 3, 14⟩

/-- Selector state for word A in the two-word vocabulary {A, B}. -/
def stAB : SelectorState Nat :=
  ⟨[("A", [[[0]]]), ("B", [[[1]]])],
   [("A", ([[0]], [1])), ("B", ([[1]], [1]))],
   [[[0]]], "A", [[0]], [1]⟩

/-- Selector state for word A in a singleton vocabulary (M = 1). -/
def stSingle : SelectorState Nat :=
  ⟨[("A", [[[0]]])], [("A", ([[0]], [1]))], [[[0]]], "A", [[0]], [1]⟩

/-- Selector state for a word with three training sequences
`[[0]], [[1]], [[2]]` (the CV split path applies). -/
def stCV3 : SelectorState Nat :=
  ⟨[("A", [[[0]], [[1]], [[2]]])],
   [("A", ([[0], [1], [2]], [1, 1, 1]))],
   [[[0]], [[1]], [[2]]], "A", [[0], [1], [2]], [1, 1, 1]⟩

/-- A two-word model mapping for the recognizer examples. -/
def exModels : List (String × Nat) := [("A", 1), ("B", 2)]

/-- A one-item test set for the recognizer examples. -/
def exTestSet : List (Mat × List Nat) := [([[5]], [1])]

/-! ## Lemmas about the recognizer -/

lemma maxStep_foldl_decomp (l : List (String × WithBot ℚ)) :
    ∀ a : String × WithBot ℚ,
      ∃ l1 l2,
        a :: l = l1 ++ (l.foldl maxStep a) :: l2 ∧
        (∀ p ∈ l1, p.2 < (l.foldl maxStep a).2) ∧
        (∀ p ∈ a :: l, p.2 ≤ (l.foldl maxStep a).2) := by
  induction l with
  | nil =>
    intro a
    refine ⟨[], [], rfl, by simp, ?_⟩
    intro p hp
    rw [List.mem_singleton] at hp
    subst hp
    exact le_refl _
  | cons b l ih =>
    intro a
    rw [List.foldl_cons]
    by_cases h : a.2 < b.2
    · have hstep : maxStep a b = b := by simp [maxStep, h]
      rw [hstep]
      obtain ⟨l1, l2, hdec, hlt, hle⟩ := ih b
      have hbr : b.2 ≤ (l.foldl maxStep b).2 := hle b (List.mem_cons_self b l)
      refine ⟨a :: l1, l2, ?_, ?_, ?_⟩
      · rw [List.cons_append, ← hdec]
      · intro p hp
        rcases List.mem_cons.mp hp with hp | hp
        · subst hp; exact lt_of_lt_of_le h hbr
        · exact hlt p hp
      · intro p hp
        rcases List.mem_cons.mp hp with hp | hp
        · subst hp; exact le_of_lt (lt_of_lt_of_le h hbr)
        · exact hle p hp
    · have hstep : maxStep a b = a := by simp [maxStep, h]
      rw [hstep]
      obtain ⟨l1, l2, hdec, hlt, hle⟩ := ih a
      have hba : b.2 ≤ a.2 := le_of_not_lt h
      have har : a.2 ≤ (l.foldl maxStep a).2 := hle a (List.mem_cons_self a l)
      cases l1 with
      | nil =>
        rw [List.nil_append] at hdec
        have hra : l.foldl maxStep a = a := (List.cons.injEq _ _ _ _ ▸ hdec).1.symm
        have hl2 : l2 = l := (List.cons.injEq _ _ _ _ ▸ hdec).2.symm
        refine ⟨[], b :: l2, ?_, by simp, ?_⟩
        · rw [List.nil_append, hra, hl2]
        · intro p hp
          rcases List.mem_cons.mp hp with hp | hp
          · subst hp; exact har
          · rcases List.mem_cons.mp hp with hp | hp
            · subst hp; exact le_trans hba har
            · exact hle p (List.mem_cons_of_mem a (hl2 ▸ hp))
      | cons a1 l1tl =>
        rw [List.cons_append] at hdec
        have ha1 : a1 = a := ((List.cons.injEq _ _ _ _ ▸ hdec).1).symm
        have hl : l = l1tl ++ (l.foldl maxStep a) :: l2 := (List.cons.injEq _ _ _ _ ▸ hdec).2
        have haf : a.2 < (l.foldl maxStep a).2 := by
          apply hlt
          rw [← ha1]
          exact List.mem_cons_self a1 l1tl
        refine ⟨a :: b :: l1tl, l2, ?_, ?_, ?_⟩
        · rw [List.cons_append, List.cons_append, ← hl]
        · intro p hp
          rcases List.mem_cons.mp hp with hp | hp
          · subst hp; exact haf
          · rcases List.mem_cons.mp hp with hp | hp
            · subst hp; exact lt_of_le_of_lt hba haf
            · exact hlt p (ha1 ▸ List.mem_cons_of_mem a1 hp)
        · intro p hp
          rcases List.mem_cons.mp hp with hp | hp
          · subst hp; exact har
          · rcases List.mem_cons.mp hp with hp | hp
            · subst hp; exact le_trans hba har
            · exact hle p (List.mem_cons_of_mem a hp)

lemma find?_decomp {β : Type} (P : β → Bool) :
    ∀ (l1 : List β) (r : β) (l2 : List β),
      (∀ p ∈ l1, P p = false) → P r = true →
      (l1 ++ r :: l2).find? P = some r := by
  intro l1
  induction l1 with
  | nil =>
    intro r l2 _ hr
    rw [List.nil_append]
    exact List.find?_cons_of_pos _ hr
  | cons a l ih =>
    intro r l2 hl hr
    rw [List.cons_append, List.find?_cons_of_neg _ (by simp [hl a (List.mem_cons_self a l)])]
    exact ih r l2 (fun p hp => hl p (List.mem_cons_of_mem a hp)) hr

lemma pyMaxKeyD_cons (a : String × WithBot ℚ) (rest : List (String × WithBot ℚ)) :
    pyMaxKeyD (a :: rest) = (rest.foldl maxStep a).1 := rfl

lemma pyMaxKey_eq (l : List (String × WithBot ℚ)) (h : l ≠ []) :
    pyMaxKey l = .ok (pyMaxKeyD l) := by
  cases l with
  | nil => exact absurd rfl h
  | cons a rest => rfl

lemma firstArgmax_eq_pyMaxKeyD (a : String × WithBot ℚ)
    (rest : List (String × WithBot ℚ)) :
    firstArgmax (a :: rest) = some (pyMaxKeyD (a :: rest)) := by
  obtain ⟨l1, l2, hdec, hlt, hle⟩ := maxStep_foldl_decomp rest a
  rw [hdec] at hle
  have hrm : rest.foldl maxStep a ∈ l1 ++ (rest.foldl maxStep a) :: l2 :=
    List.mem_append_right _ (List.mem_cons_self _ _)
  rw [pyMaxKeyD_cons, firstArgmax, hdec]
  rw [find?_decomp _ l1 _ l2 ?hfalse ?htrue]
  · rfl
  case hfalse =>
    intro p hp
    rw [decide_eq_false_iff_not]
    intro hall
    exact absurd (lt_of_le_of_lt (hall _ hrm) (hlt p hp)) (lt_irrefl _)
  case htrue =>
    rw [decide_eq_true_eq]
    exact hle

lemma nodupKeys_val {β : Type} :
    ∀ (l : List (String × β)), (l.map Prod.fst).Nodup →
      ∀ k (v w : β), (k, v) ∈ l → (k, w) ∈ l → v = w := by
  intro l
  induction l with
  | nil => intro _ k v w hv _; cases hv
  | cons a l ih =>
    intro hnd k v w hv hw
    rw [List.map_cons, List.nodup_cons] at hnd
    rcases List.mem_cons.mp hv with hv | hv <;> rcases List.mem_cons.mp hw with hw | hw
    · rw [← hv] at hw; exact (Prod.mk.injEq _ _ _ _ ▸ hw).2.symm
    · exfalso
      apply hnd.1
      rw [← hv]
      exact List.mem_map.mpr ⟨(k, w), hw, rfl⟩
    · exfalso
      apply hnd.1
      rw [← hw]
      exact List.mem_map.mpr ⟨(k, v), hv, rfl⟩
    · exact ih hnd.2 k v w hv hw

lemma scoreRecord_keys {α : Type} (o : HMMOracle α) (models : List (String × α))
    (X : Mat) (lengths : List Nat) :
    (scoreRecord o models X lengths).map Prod.fst = models.map Prod.fst := by
  simp [scoreRecord]

lemma scoreRecord_ne_nil {α : Type} (o : HMMOracle α) (models : List (String × α))
    (X : Mat) (lengths : List Nat) (h : models ≠ []) :
    scoreRecord o models X lengths ≠ [] := by
  cases models with
  | nil => exact absurd rfl h
  | cons m0 ms => simp [scoreRecord]

lemma recognize_eq {α : Type} (o : HMMOracle α) (models : List (String × α))
    (h : models ≠ []) (ts : List (Mat × List Nat)) :
    recognize o models ts =
      .ok (ts.map (fun t => scoreRecord o models t.1 t.2),
           ts.map (fun t => pyMaxKeyD (scoreRecord o models t.1 t.2))) := by
  induction ts with
  | nil => rfl
  | cons t rest ih =>
    obtain ⟨X, lengths⟩ := t
    simp only [recognize]
    rw [pyMaxKey_eq _ (scoreRecord_ne_nil o models X lengths h), ih]
    simp

/-- C4: for a non-empty model mapping, `recognize` returns two lists whose
lengths both equal the number of test items; for every index, the ScoreRecord
is the one of the corresponding test item (test-set order preserved) and the
guess is the first word achieving the maximal score in that record. -/
theorem C4_recognize_shape {α : Type} (o : HMMOracle α)
    (models : List (String × α)) (ts : List (Mat × List Nat))
    (h : models ≠ []) :
    ∃ ps gs,
      recognize o models ts = .ok (ps, gs) ∧
      ps.length = ts.length ∧ gs.length = ts.length ∧
      ∀ (i : Nat) (t : Mat × List Nat), ts[i]? = some t →
        ps[i]? = some (scoreRecord o models t.1 t.2) ∧
        ∃ g, gs[i]? = some g ∧
          firstArgmax (scoreRecord o models t.1 t.2) = some g := by
  refine ⟨_, _, recognize_eq o models h ts, by simp, by simp, ?_⟩
  intro i t ht
  refine ⟨?_, pyMaxKeyD (scoreRecord o models t.1 t.2), ?_, ?_⟩
  · rw [List.getElem?_map, ht]; rfl
  · rw [List.getElem?_map, ht]; rfl
  · cases hrec : scoreRecord o models t.1 t.2 with
    | nil => exact absurd hrec (scoreRecord_ne_nil o models t.1 t.2 h)
    | cons a rest => rw [firstArgmax_eq_pyMaxKeyD]

/-- Witness for C4 at a concrete mapping and test set. -/
theorem C4_witness :
    ∃ ps gs,
      recognize exOracleRecog exModels exTestSet = .ok (ps, gs) ∧
      ps.length = exTestSet.length ∧ gs.length = exTestSet.length ∧
      ∀ (i : Nat) (t : Mat × List Nat), exTestSet[i]? = some t →
        ps[i]? = some (scoreRecord exOracleRecog exModels t.1 t.2) ∧
        ∃ g, gs[i]? = some g ∧
          firstArgmax (scoreRecord exOracleRecog exModels t.1 t.2) = some g :=
  C4_recognize_shape exOracleRecog exModels exTestSet (by decide)

/-- C10: with an empty model mapping and a non-empty test set, `recognize`
raises (the `max` of an empty score record) instead of returning the two
output lists. -/
theorem C10_empty_models_raises {α : Type} (o : HMMOracle α)
    (ts : List (Mat × List Nat)) (h : ts ≠ []) :
    recognize o ([] : List (String × α)) ts = .error () := by
  cases ts with
  | nil => exact absurd rfl h
  | cons t rest => obtain ⟨X, lengths⟩ := t; rfl

/-- Witness for C10 at a concrete test set. -/
theorem C10_witness :
    recognize exOracle ([] : List (String × Nat)) exTestSet = .error () :=
  C10_empty_models_raises exOracle exTestSet (by decide)

/-- C3: if scoring some word's model fails on a test item, that word's entry
in the item's ScoreRecord is negative infinity, the item is still processed
(recognize returns normally with a record for it), and that word can be the
guess only if every word's score for the item is negative infinity. -/
theorem C3_score_failure_neg_inf {α : Type} (o : HMMOracle α)
    (models : List (String × α)) (ts : List (Mat × List Nat))
    (w : String) (m : α) (i : Nat) (t : Mat × List Nat)
    (hne : models ≠ []) (hnd : (models.map Prod.fst).Nodup)
    (hmem : (w, m) ∈ models) (ht : ts[i]? = some t)
    (hfail : o.score m t.1 t.2 = .error ()) :
    ∃ ps gs,
      recognize o models ts = .ok (ps, gs) ∧
      ps[i]? = some (scoreRecord o models t.1 t.2) ∧
      (w, (⊥ : WithBot ℚ)) ∈ scoreRecord o models t.1 t.2 ∧
      ∀ g, gs[i]? = some g → g = w →
        ∀ p ∈ scoreRecord o models t.1 t.2, p.2 = ⊥ := by
  have hbot : (w, (⊥ : WithBot ℚ)) ∈ scoreRecord o models t.1 t.2 := by
    apply List.mem_map.mpr
    exact ⟨(w, m), hmem, by simp [compute_log_likelihood, hfail]⟩
  refine ⟨_, _, recognize_eq o models hne ts, ?_, hbot, ?_⟩
  · rw [List.getElem?_map, ht]; rfl
  · intro g hg hgw p hp
    rw [List.getElem?_map, ht] at hg
    have hg : g = pyMaxKeyD (scoreRecord o models t.1 t.2) :=
      (Option.some.injEq _ _ ▸ hg).symm
    have hndrec : ((scoreRecord o models t.1 t.2).map Prod.fst).Nodup := by
      rw [scoreRecord_keys]; exact hnd
    cases hrec : scoreRecord o models t.1 t.2 with
    | nil => rw [hrec] at hp; cases hp
    | cons a rest =>
      obtain ⟨l1, l2, hdec, hlt, hle⟩ := maxStep_foldl_decomp rest a
      have hrmem : rest.foldl maxStep a ∈ scoreRecord o models t.1 t.2 := by
        rw [hrec, hdec]
        exact List.mem_append_right _ (List.mem_cons_self _ _)
      have hw : w = (rest.foldl maxStep a).1 := by
        rw [← hgw, hg, hrec]
        exact pyMaxKeyD_cons a rest
      have hrpair : (w, (rest.foldl maxStep a).2) ∈ scoreRecord o models t.1 t.2 := by
        rw [hw, Prod.mk.eta]
        exact hrmem
      have hval : (rest.foldl maxStep a).2 = ⊥ := nodupKeys_val _ hndrec w _ _ hrpair hbot
      have hple : p.2 ≤ (rest.foldl maxStep a).2 := by
        rw [hrec] at hp
        exact hle p hp
      rw [hval] at hple
      exact le_bot_iff.mp hple

/-- Witness for C3 at a concrete failing model. -/
theorem C3_witness :
    ∃ ps gs,
      recognize exOracleRecog exModels exTestSet = .ok (ps, gs) ∧
      ps[0]? = some (scoreRecord exOracleRecog exModels
        ([[5]], [1]).1 ([[5]], [1]).2) ∧
      ("A", (⊥ : WithBot ℚ)) ∈ scoreRecord exOracleRecog exModels
        ([[5]], [1]).1 ([[5]], [1]).2 ∧
      ∀ g, gs[0]? = some g → g = "A" →
        ∀ p ∈ scoreRecord exOracleRecog exModels ([[5]], [1]).1 ([[5]], [1]).2,
          p.2 = ⊥ :=
  C3_score_failure_neg_inf exOracleRecog exModels exTestSet "A" 1 0
    ([[5]], [1]) (by decide) (by decide) (by decide) (by decide) rfl

/-! ## Lemmas about the BIC selector -/

lemma foldl_leastStep_some {α : Type} (xs : List (ℚ × α)) :
    ∀ x, xs.foldl leastStep (some x) =
      some (xs.foldl (fun b p => if p.1 < b.1 then p else b) x) := by
  induction xs with
  | nil => intro x; rfl
  | cons y xs ih =>
    intro x
    rw [List.foldl_cons, List.foldl_cons]
    have hstep : leastStep (some x) y = some (if y.1 < x.1 then y else x) := by
      by_cases h : y.1 < x.1 <;> simp [leastStep, h]
    rw [hstep]
    exact ih _

lemma leastBy_eq_foldl {α : Type} (l : List (ℚ × α)) :
    l.foldl leastStep none = leastBy l := by
  cases l with
  | nil => rfl
  | cons x xs =>
    rw [List.foldl_cons]
    exact foldl_leastStep_some xs x

lemma minFold_spec {α : Type} (xs : List (ℚ × α)) :
    ∀ x, (xs.foldl (fun b p => if p.1 < b.1 then p else b) x) ∈ x :: xs ∧
      ∀ q ∈ x :: xs, (xs.foldl (fun b p => if p.1 < b.1 then p else b) x).1 ≤ q.1 := by
  induction xs with
  | nil =>
    intro x
    refine ⟨List.mem_cons_self x [], ?_⟩
    intro q hq
    rw [List.mem_singleton] at hq
    subst hq
    exact le_refl _
  | cons y xs ih =>
    intro x
    rw [List.foldl_cons]
    by_cases h : y.1 < x.1
    · have hstep : (if y.1 < x.1 then y else x) = y := by simp [h]
      rw [hstep]
      obtain ⟨hmem, hmin⟩ := ih y
      constructor
      · rcases List.mem_cons.mp hmem with hm | hm
        · rw [hm]; exact List.mem_cons_of_mem x (List.mem_cons_self y xs)
        · exact List.mem_cons_of_mem x (List.mem_cons_of_mem y hm)
      · intro q hq
        rcases List.mem_cons.mp hq with hq | hq
        · rw [hq]
          exact le_of_lt (lt_of_le_of_lt (hmin y (List.mem_cons_self y xs)) h)
        · exact hmin q hq
    · have hstep : (if y.1 < x.1 then y else x) = x := by simp [h]
      rw [hstep]
      obtain ⟨hmem, hmin⟩ := ih x
      have hxy : x.1 ≤ y.1 := le_of_not_lt h
      constructor
      · rcases List.mem_cons.mp hmem with hm | hm
        · rw [hm]; exact List.mem_cons_self x (y :: xs)
        · exact List.mem_cons_of_mem x (List.mem_cons_of_mem y hm)
      · intro q hq
        rcases List.mem_cons.mp hq with hq | hq
        · rw [hq]
          exact hmin x (List.mem_cons_self x xs)
        · rcases List.mem_cons.mp hq with hq | hq
          · rw [hq]
            exact le_trans (hmin x (List.mem_cons_self x xs)) hxy
          · exact hmin q (List.mem_cons_of_mem x hq)

lemma leastBy_spec {α : Type} (l : List (ℚ × α)) (p : ℚ × α)
    (h : leastBy l = some p) : p ∈ l ∧ ∀ q ∈ l, p.1 ≤ q.1 := by
  cases l with
  | nil => cases h
  | cons x xs =>
    obtain ⟨hmem, hmin⟩ := minFold_spec xs x
    have hp : p = xs.foldl (fun b p => if p.1 < b.1 then p else b) x := by
      simpa [leastBy] using h.symm
    rw [hp]
    exact ⟨hmem, hmin⟩

lemma bic_step_eq {α : Type} (o : HMMOracle α) (cfg : Config) (X : Mat)
    (lengths : List Nat) (acc : Option (ℚ × α)) (k : Nat) :
    pyTry (bicTryBody o cfg X lengths acc k) acc =
      match bicAttempt o cfg X lengths k with
      | none => acc
      | some p => leastStep acc p := by
  cases hbm : base_model o cfg.random_state k X lengths with
  | none => simp [bicTryBody, bicAttempt, hbm, pyTry]
  | some m =>
    cases hs : o.score m X lengths with
    | error e =>
      cases e
      simp [bicTryBody, bicAttempt, hbm, hs, pyTry]
    | ok logL =>
      simp only [bicTryBody, bicAttempt, hbm, hs]
      have hb : ((k * ((X.headD []).length * 2 + 1) : Nat) : ℚ) * o.log X.length =
          ((k * (2 * (X.headD []).length + 1) : Nat) : ℚ) * o.log X.length := by
        push_cast
        ring
      rw [hb]
      cases acc with
      | none => rfl
      | some q =>
        obtain ⟨b, bm⟩ := q
        generalize (-2 * logL + ((k * (2 * (X.headD []).length + 1) : Nat) : ℚ) * o.log X.length) = bic
        by_cases hlt : bic < b
        · simp [pyTry, leastStep, hlt, gt_iff_lt]
        · simp [pyTry, leastStep, hlt, gt_iff_lt]

lemma bic_foldl_eq {α : Type} (o : HMMOracle α) (cfg : Config) (X : Mat)
    (lengths : List Nat) :
    ∀ (ks : List Nat) (acc : Option (ℚ × α)),
      ks.foldl (fun acc k => pyTry (bicTryBody o cfg X lengths acc k) acc) acc =
        (ks.filterMap (bicAttempt o cfg X lengths)).foldl leastStep acc := by
  intro ks
  induction ks with
  | nil => intro acc; rfl
  | cons k ks ih =>
    intro acc
    rw [List.foldl_cons, bic_step_eq o cfg X lengths acc k]
    cases hk : bicAttempt o cfg X lengths k with
    | none => rw [List.filterMap_cons, hk]; exact ih acc
    | some p => rw [List.filterMap_cons, hk, List.foldl_cons]; exact ih (leastStep acc p)

lemma bic_select_eq {α : Type} (o : HMMOracle α) (cfg : Config)
    (st : SelectorState α) :
    (SelectorBIC.select o cfg st).1 =
      (leastBy ((candidates cfg).filterMap (bicAttempt o cfg st.X st.lengths))).map
        Prod.snd := by
  unfold SelectorBIC.select
  rw [bic_foldl_eq o cfg st.X st.lengths (candidates cfg) none, leastBy_eq_foldl]

/-- C2 (amended: a candidate contributes exactly when both its fit and its
self-scoring succeed): when no candidate both fits and scores, the BIC
selector returns None; otherwise it returns a model attaining the least
`-2*logL + p*ln N` score, `p = k*(2*d+1)`, over all contributing candidates. -/
theorem C2_bic_minimizes {α : Type} (o : HMMOracle α) (cfg : Config)
    (st : SelectorState α) :
    ((candidates cfg).filterMap (bicAttempt o cfg st.X st.lengths) = [] →
      (SelectorBIC.select o cfg st).1 = none) ∧
    ∀ p ∈ (candidates cfg).filterMap (bicAttempt o cfg st.X st.lengths),
      ∃ b m, (SelectorBIC.select o cfg st).1 = some m ∧
        (b, m) ∈ (candidates cfg).filterMap (bicAttempt o cfg st.X st.lengths) ∧
        ∀ q ∈ (candidates cfg).filterMap (bicAttempt o cfg st.X st.lengths),
          b ≤ q.1 := by
  constructor
  · intro hnil
    rw [bic_select_eq, hnil]
    rfl
  · intro p hp
    cases hL : leastBy ((candidates cfg).filterMap (bicAttempt o cfg st.X st.lengths)) with
    | none =>
      exfalso
      cases hsucc : (candidates cfg).filterMap (bicAttempt o cfg st.X st.lengths) with
      | nil => rw [hsucc] at hp; cases hp
      | cons x xs => rw [hsucc] at hL; cases hL
    | some r =>
      obtain ⟨hmem, hmin⟩ := leastBy_spec _ r hL
      refine ⟨r.1, r.2, ?_, ?_, hmin⟩
      · rw [bic_select_eq, hL]; rfl
      · rw [Prod.mk.eta]; exact hmem

/-- Witness for C2 at a concrete oracle where both candidates contribute. -/
theorem C2_witness :
    ∃ b m, (SelectorBIC.select exOracle cfg24 stAB).1 = some m ∧
      (b, m) ∈ (candidates cfg24).filterMap
        (bicAttempt exOracle cfg24 stAB.X stAB.lengths) ∧
      ∀ q ∈ (candidates cfg24).filterMap
        (bicAttempt exOracle cfg24 stAB.X stAB.lengths), b ≤ q.1 :=
  (C2_bic_minimizes exOracle cfg24 stAB).2 ((2 : ℚ), 2) (by
    have hc : candidates cfg24 = [2, 3] := rfl
    rw [hc]
    norm_num [bicAttempt, base_model, exOracle, cfg24, stAB, Except.toOption,
      List.filterMap_cons])

/-- Counterexample to C2 as stated: with the scenario configuration, the
2-state candidate is fitted successfully (so the claim asserts a model is
returned), yet scoring fails and the source returns None. -/
theorem C2_counterexample :
    (SelectorBIC.select exOracleScoreFail cfg24 stAB).1 = none ∧
    base_model exOracleScoreFail cfg24.random_state 2 stAB.X stAB.lengths = some 2 ∧
    2 ∈ candidates cfg24 := by
  refine ⟨?_, by decide, by decide⟩
  rfl

/-- C7: the searching selectors enumerate exactly the inclusive-exclusive
integer range of candidate state counts; with `min=2, max=4` the candidates
are exactly 2 and 3 and the BIC selector returns the lower-scoring of the two
attempts (None when both fail). -/
theorem C7_range_enumeration {α : Type} :
    (∀ (cfg : Config) (k : Nat), k ∈ candidates cfg ↔
      cfg.min_n_components ≤ k ∧ k < cfg.max_n_components) ∧
    candidates cfg24 = [2, 3] ∧
    ∀ (o : HMMOracle α) (st : SelectorState α),
      (SelectorBIC.select o cfg24 st).1 = bicBestOfTwo o cfg24 st.X st.lengths := by
  refine ⟨?_, by decide, ?_⟩
  · intro cfg k
    rw [candidates, List.mem_range'_1]
    omega
  · intro o st
    rw [bic_select_eq]
    have hc : candidates cfg24 = [2, 3] := by decide
    rw [hc]
    unfold bicBestOfTwo
    cases h2 : bicAttempt o cfg24 st.X st.lengths 2 with
    | none =>
      cases h3 : bicAttempt o cfg24 st.X st.lengths 3 with
      | none => simp [List.filterMap_cons, h2, h3, leastBy]
      | some q => simp [List.filterMap_cons, h2, h3, leastBy]
    | some p =>
      cases h3 : bicAttempt o cfg24 st.X st.lengths 3 with
      | none => simp [List.filterMap_cons, h2, h3, leastBy]
      | some q =>
        simp only [List.filterMap_cons, h2, h3, leastBy, List.foldl_cons, List.foldl_nil]
        by_cases hlt : q.1 < p.1 <;> simp [hlt]

/-! ## Lemmas about the DIC and CV selectors -/

lemma base_model_eq_some {α : Type} (o : HMMOracle α) (s k : Nat) (X : Mat)
    (l : List Nat) (m : α) : base_model o s k X l = some m ↔ o.fit s k X l = .ok m := by
  unfold base_model
  cases h : o.fit s k X l <;> simp [Except.toOption]

lemma dic_step_cases {α : Type} (o : HMMOracle α) (cfg : Config)
    (st : SelectorState α) (acc : WithBot ℚ × Option α) (k : Nat) :
    pyTry (dicTryBody o cfg st acc k) acc = acc ∨
    (((st.words.length : ℤ) - 1 : ℤ) ≠ 0 ∧
      ∃ m, base_model o cfg.random_state k st.X st.lengths = some m ∧
        pyTry (dicTryBody o cfg st acc k) acc = (acc.1, some m)) := by
  cases hbm : base_model o cfg.random_state k st.X st.lengths with
  | none => left; simp [dicTryBody, hbm, pyTry]
  | some m =>
    cases hs : o.score m st.X st.lengths with
    | error e => left; simp [dicTryBody, hbm, hs, pyTry]
    | ok own =>
      cases hc : dicCompetitorSum o m st.hwords
          ((st.words.map Prod.fst).filter (fun w => w != st.this_word)) with
      | error e => left; simp [dicTryBody, hbm, hs, hc, pyTry]
      | ok scores =>
        by_cases hz : ((st.words.length : ℤ) - 1 : ℤ) = 0
        · left; simp [dicTryBody, hbm, hs, hc, hz, pyTry]
        · by_cases hlt : acc.1 <
              ((own - scores / (((st.words.length : ℤ) - 1 : ℤ) : ℚ) : ℚ) : WithBot ℚ)
          · right
            refine ⟨hz, m, rfl, ?_⟩
            simp only [dicTryBody, hbm, hs, hc]
            rw [if_neg hz, if_pos hlt]
            rfl
          · left
            simp only [dicTryBody, hbm, hs, hc]
            rw [if_neg hz, if_neg hlt]
            rfl

lemma dic_fold_inv {α : Type} (o : HMMOracle α) (cfg : Config)
    (st : SelectorState α) :
    ∀ (ks : List Nat) (acc : WithBot ℚ × Option α) (m : α),
      (ks.foldl (fun acc k => pyTry (dicTryBody o cfg st acc k) acc) acc).2 = some m →
      acc.2 = some m ∨
        ∃ k, k ∈ ks ∧ base_model o cfg.random_state k st.X st.lengths = some m := by
  intro ks
  induction ks with
  | nil => intro acc m h; left; exact h
  | cons k ks ih =>
    intro acc m h
    rw [List.foldl_cons] at h
    rcases ih _ m h with hstep | ⟨kk, hmem, hbm⟩
    · rcases dic_step_cases o cfg st acc k with heq | ⟨_, mm, hbm, heq⟩
      · rw [heq] at hstep; left; exact hstep
      · rw [heq] at hstep
        right
        refine ⟨k, List.mem_cons_self k ks, ?_⟩
        have h2 : some mm = some m := hstep
        have h3 : mm = m := Option.some_inj.mp h2
        rw [← h3]
        exact hbm
    · right; exact ⟨kk, List.mem_cons_of_mem k hmem, hbm⟩

lemma dic_fold_const {α : Type} (o : HMMOracle α) (cfg : Config)
    (st : SelectorState α) (hM : st.words.length = 1) :
    ∀ (ks : List Nat) (acc : WithBot ℚ × Option α),
      ks.foldl (fun acc k => pyTry (dicTryBody o cfg st acc k) acc) acc = acc := by
  intro ks
  induction ks with
  | nil => intro acc; rfl
  | cons k ks ih =>
    intro acc
    rw [List.foldl_cons]
    rcases dic_step_cases o cfg st acc k with heq | ⟨hz, _⟩
    · rw [heq]; exact ih acc
    · exfalso; apply hz; rw [hM]; rfl

lemma cvFoldLoop_inv {α : Type} (o : HMMOracle α) (seed k : Nat) (seqs : Seqs)
    (P : α → Prop)
    (hfit : ∀ (m : α) (X2 : Mat) (l2 : List Nat),
      base_model o seed k X2 l2 = some m → P m) :
    ∀ (folds : List (List Nat × List Nat)) (xl : Mat × List Nat)
      (scores : List ℚ) (best : WithBot ℚ × Option α),
      (∀ m, best.2 = some m → P m) →
      ∀ m, (cvFoldLoop o seed k seqs folds xl scores best).2.2.2 = some m → P m := by
  intro folds
  induction folds with
  | nil => intro xl scores best hbest m h; exact hbest m h
  | cons f rest ih =>
    intro xl scores best hbest m h
    obtain ⟨tr, te⟩ := f
    simp only [cvFoldLoop] at h
    cases hbm : base_model o seed k (combine_sequences tr seqs).1
        (combine_sequences tr seqs).2 with
    | none =>
      simp only [hbm] at h
      exact ih _ _ _ hbest m h
    | some mm =>
      simp only [hbm] at h
      cases hs : o.score mm (combine_sequences te seqs).1
          (combine_sequences te seqs).2 with
      | error e =>
        simp only [hs] at h
        exact hbest m h
      | ok s =>
        simp only [hs] at h
        refine ih _ _ _ ?_ m h
        intro m2 h2
        by_cases hlt : best.1 <
            (((scores ++ [s]).sum / (((scores ++ [s]).length : Nat) : ℚ) : ℚ) : WithBot ℚ)
        · rw [if_pos hlt] at h2
          have h3 : some mm = some m2 := h2
          have h4 : mm = m2 := Option.some_inj.mp h3
          exact h4 ▸ hfit mm _ _ hbm
        · rw [if_neg hlt] at h2
          exact hbest m2 h2

lemma cvCandidate_inv {α : Type} (o : HMMOracle α) (cfg : Config) (seqs : Seqs)
    (P : α → Prop)
    (hfit : ∀ (kk : Nat) (m : α) (X2 : Mat) (l2 : List Nat),
      base_model o cfg.random_state kk X2 l2 = some m → P m) :
    ∀ (acc : (Mat × List Nat) × (WithBot ℚ × Option α)) (k : Nat),
      (∀ m, acc.2.2 = some m → P m) →
      ∀ m, (cvCandidate o cfg seqs acc k).2.2 = some m → P m := by
  intro acc k hacc m h
  simp only [cvCandidate] at h
  by_cases hlen : 2 < seqs.length
  · rw [if_pos hlen] at h
    exact cvFoldLoop_inv o cfg.random_state k seqs P (fun m2 X2 l2 => hfit k m2 X2 l2)
      _ _ _ _ hacc m h
  · rw [if_neg hlen] at h
    cases hbm : base_model o cfg.random_state k acc.1.1 acc.1.2 with
    | none => simp only [hbm] at h; exact hacc m h
    | some mm =>
      simp only [hbm] at h
      cases hs : o.score mm acc.1.1 acc.1.2 with
      | error e => simp only [hs] at h; exact hacc m h
      | ok s =>
        simp only [hs] at h
        by_cases hlt : acc.2.1 < ((s : ℚ) : WithBot ℚ)
        · rw [if_pos hlt] at h
          have h3 : some mm = some m := h
          have h4 : mm = m := Option.some_inj.mp h3
          exact h4 ▸ hfit k mm _ _ hbm
        · rw [if_neg hlt] at h
          exact hacc m h

lemma cv_fold_inv {α : Type} (o : HMMOracle α) (cfg : Config) (seqs : Seqs)
    (P : α → Prop)
    (hfit : ∀ (kk : Nat) (m : α) (X2 : Mat) (l2 : List Nat),
      base_model o cfg.random_state kk X2 l2 = some m → P m) :
    ∀ (ks : List Nat) (acc : (Mat × List Nat) × (WithBot ℚ × Option α)),
      (∀ m, acc.2.2 = some m → P m) →
      ∀ m, ((ks.foldl (cvCandidate o cfg seqs) acc).2.2 = some m) → P m := by
  intro ks
  induction ks with
  | nil => intro acc hacc m h; exact hacc m h
  | cons k ks ih =>
    intro acc hacc m h
    rw [List.foldl_cons] at h
    exact ih _ (fun m2 h2 => cvCandidate_inv o cfg seqs P hfit acc k hacc m2 h2) m h

/-- C1 (evaluation of the code at the failing input): with vocabulary {A, B},
candidates {2, 3}, every fit succeeding, DIC score 100 for the 2-state
candidate and 0 for the 3-state candidate, `SelectorDIC.select` returns the
3-state model — the last successfully fitted candidate — although the
2-state candidate has the strictly larger DIC score. -/
theorem C1_code_eval :
    (SelectorDIC.select exOracleDIC cfg24 stAB).1 = some 3 ∧
    dicScoreSpec exOracleDIC cfg24 stAB 2 = some 100 ∧
    dicScoreSpec exOracleDIC cfg24 stAB 3 = some 0 ∧
    (0 : ℚ) < 100 := by
  refine ⟨?_, ?_, ?_, by norm_num⟩
  · norm_num [SelectorDIC.select, candidates, cfg24, dicTryBody, dicCompetitorSum,
      pyLookup, base_model, exOracleDIC, stAB, pyTry, Except.toOption,
      List.range', List.find?, List.filter,
      (show ("A" == "B") = false by decide), (show ("B" == "B") = true by decide),
      (show (⊥ : WithBot ℚ) < 100 by decide), (show (⊥ : WithBot ℚ) < 0 by decide)]
  · norm_num [dicScoreSpec, dicCompetitorSum, pyLookup, base_model, exOracleDIC,
      cfg24, stAB, Except.toOption, List.find?, List.filter,
      (show ("A" == "B") = false by decide), (show ("B" == "B") = true by decide)]
  · norm_num [dicScoreSpec, dicCompetitorSum, pyLookup, base_model, exOracleDIC,
      cfg24, stAB, Except.toOption, List.find?, List.filter,
      (show ("A" == "B") = false by decide), (show ("B" == "B") = true by decide)]

/-- C6: every selector returns either a successfully fitted model or None —
fitting failures, scoring failures and the DIC division for a singleton
vocabulary are all swallowed, never propagated (in particular the DIC
selector returns None when the vocabulary has exactly one word). -/
theorem C6_no_exception_escape {α : Type} (o : HMMOracle α) (cfg : Config)
    (st : SelectorState α) :
    (∀ m, (SelectorConstant.select o cfg st).1 = some m →
      o.fit cfg.random_state cfg.n_constant st.X st.lengths = .ok m) ∧
    (∀ m, (SelectorBIC.select o cfg st).1 = some m →
      ∃ k, k ∈ candidates cfg ∧ o.fit cfg.random_state k st.X st.lengths = .ok m) ∧
    (∀ m, (SelectorDIC.select o cfg st).1 = some m →
      ∃ k, k ∈ candidates cfg ∧ o.fit cfg.random_state k st.X st.lengths = .ok m) ∧
    (st.words.length = 1 → (SelectorDIC.select o cfg st).1 = none) ∧
    (∀ m, (SelectorCV.select o cfg st).1 = some m →
      ∃ (k : Nat) (X2 : Mat) (l2 : List Nat), o.fit cfg.random_state k X2 l2 = .ok m) := by
  refine ⟨?_, ?_, ?_, ?_, ?_⟩
  · intro m h
    exact (base_model_eq_some o cfg.random_state cfg.n_constant st.X st.lengths m).mp h
  · intro m h
    rw [bic_select_eq] at h
    rcases Option.map_eq_some'.mp h with ⟨r, hr, hrm⟩
    obtain ⟨hmem, hmin⟩ := leastBy_spec _ r hr
    rcases List.mem_filterMap.mp hmem with ⟨k, hk, hatt⟩
    refine ⟨k, hk, ?_⟩
    unfold bicAttempt at hatt
    cases hbm : base_model o cfg.random_state k st.X st.lengths with
    | none => simp only [hbm] at hatt; cases hatt
    | some mm =>
      simp only [hbm] at hatt
      cases hs : o.score mm st.X st.lengths with
      | error e => simp only [hs] at hatt; cases hatt
      | ok logL =>
        rw [hs] at hatt
        have hpair := Option.some_inj.mp hatt
        have hm2 : mm = m := by rw [← hrm, ← hpair]
        rw [← hm2]
        exact (base_model_eq_some o cfg.random_state k st.X st.lengths mm).mp hbm
  · intro m h
    unfold SelectorDIC.select at h
    rcases dic_fold_inv o cfg st (candidates cfg) (⊥, none) m h with hnone | ⟨k, hk, hbm⟩
    · cases hnone
    · exact ⟨k, hk, (base_model_eq_some o cfg.random_state k st.X st.lengths m).mp hbm⟩
  · intro hM
    unfold SelectorDIC.select
    rw [dic_fold_const o cfg st hM (candidates cfg) (⊥, none)]
  · intro m h
    unfold SelectorCV.select at h
    refine cv_fold_inv o cfg st.sequences
      (fun m2 => ∃ (k : Nat) (X2 : Mat) (l2 : List Nat),
        o.fit cfg.random_state k X2 l2 = .ok m2)
      (fun kk m2 X2 l2 hbm =>
        ⟨kk, X2, l2, (base_model_eq_some o cfg.random_state kk X2 l2 m2).mp hbm⟩)
      (candidates cfg) ((st.X, st.lengths), (⊥, none)) ?_ m h
    intro m2 h2
    cases h2

/-- Witness for C6: a successful constant fit is reported, and the DIC
selector with a singleton vocabulary returns None (the division by M-1=0 is
swallowed). -/
theorem C6_witness :
    exOracle.fit cfg24.random_state cfg24.n_constant stAB.X stAB.lengths = .ok 3 ∧
    (SelectorDIC.select exOracle cfg24 stSingle).1 = none :=
  ⟨(C6_no_exception_escape exOracle cfg24 stAB).1 3 rfl,
   (C6_no_exception_escape exOracle cfg24 stSingle).2.2.2.1 (by decide)⟩

/-! ## Path lemmas for the CV selector -/

lemma cvFoldLoop_best {α : Type} (o : HMMOracle α) (seed k : Nat) (seqs : Seqs) :
    ∀ (folds : List (List Nat × List Nat)) (xl : Mat × List Nat)
      (scores : List ℚ) (best : WithBot ℚ × Option α),
      (cvFoldLoop o seed k seqs folds xl scores best).2.2 =
        cvSplitFolds o seed k seqs folds scores best := by
  intro folds
  induction folds with
  | nil => intro xl scores best; rfl
  | cons f rest ih =>
    intro xl scores best
    obtain ⟨tr, te⟩ := f
    simp only [cvFoldLoop, cvSplitFolds]
    cases hbm : base_model o seed k (combine_sequences tr seqs).1
        (combine_sequences tr seqs).2 with
    | none => simp only [hbm]; exact ih _ _ _
    | some mm =>
      simp only [hbm]
      cases hs : o.score mm (combine_sequences te seqs).1
          (combine_sequences te seqs).2 with
      | error e => simp only [hs]
      | ok s => simp only [hs]; exact ih _ _ _

lemma cv_fold_nosplit {α : Type} (o : HMMOracle α) (cfg : Config) (seqs : Seqs)
    (hlen : ¬ 2 < seqs.length) :
    ∀ (ks : List Nat) (xl : Mat × List Nat) (best : WithBot ℚ × Option α),
      ks.foldl (cvCandidate o cfg seqs) (xl, best) =
        (xl, ks.foldl
          (fun best k =>
            match base_model o cfg.random_state k xl.1 xl.2 with
            | none => best
            | some m =>
              match o.score m xl.1 xl.2 with
              | .error _ => best
              | .ok s => if best.1 < (s : WithBot ℚ)
                then ((s : WithBot ℚ), some m) else best)
          best) := by
  intro ks
  induction ks with
  | nil => intro xl best; rfl
  | cons k ks ih =>
    intro xl best
    rw [List.foldl_cons, List.foldl_cons]
    have hstep : cvCandidate o cfg seqs (xl, best) k =
        (xl, match base_model o cfg.random_state k xl.1 xl.2 with
          | none => best
          | some m =>
            match o.score m xl.1 xl.2 with
            | .error _ => best
            | .ok s => if best.1 < (s : WithBot ℚ)
              then ((s : WithBot ℚ), some m) else best) := by
      simp only [cvCandidate, if_neg hlen]
      cases hbm : base_model o cfg.random_state k xl.1 xl.2 with
      | none => simp only [hbm]
      | some m =>
        simp only [hbm]
        cases hs : o.score m xl.1 xl.2 with
        | error e => simp only [hs]
        | ok s =>
          simp only [hs]
          by_cases hlt : best.1 < ((s : ℚ) : WithBot ℚ)
          · rw [if_pos hlt, if_pos hlt]
          · rw [if_neg hlt, if_neg hlt]
    rw [hstep]
    exact ih xl _

lemma cv_fold_split {α : Type} (o : HMMOracle α) (cfg : Config) (seqs : Seqs)
    (hlen : 2 < seqs.length) :
    ∀ (ks : List Nat) (xl : Mat × List Nat) (best : WithBot ℚ × Option α),
      (ks.foldl (cvCandidate o cfg seqs) (xl, best)).2 =
        ks.foldl
          (fun best k => cvSplitFolds o cfg.random_state k seqs
            (kfold3 seqs.length) [] best)
          best := by
  intro ks
  induction ks with
  | nil => intro xl best; rfl
  | cons k ks ih =>
    intro xl best
    rw [List.foldl_cons, List.foldl_cons]
    have hstep : cvCandidate o cfg seqs (xl, best) k =
        ((cvFoldLoop o cfg.random_state k seqs (kfold3 seqs.length) xl [] best).1,
         cvSplitFolds o cfg.random_state k seqs (kfold3 seqs.length) [] best) := by
      simp only [cvCandidate, if_pos hlen]
      rw [← cvFoldLoop_best o cfg.random_state k seqs (kfold3 seqs.length) xl [] best]
    rw [hstep]
    exact ih _ _

lemma cv_select_nosplit {α : Type} (o : HMMOracle α) (cfg : Config)
    (st : SelectorState α) (hlen : ¬ 2 < st.sequences.length) :
    SelectorCV.select o cfg st = (cvNoSplitSelect o cfg st.X st.lengths, st) := by
  simp only [SelectorCV.select, cvNoSplitSelect,
    cv_fold_nosplit o cfg st.sequences hlen (candidates cfg)
      (st.X, st.lengths) (⊥, none)]

lemma cv_select_split {α : Type} (o : HMMOracle α) (cfg : Config)
    (st : SelectorState α) (hlen : 2 < st.sequences.length) :
    (SelectorCV.select o cfg st).1 = cvSplitSelect o cfg st.sequences := by
  simp only [SelectorCV.select, cvSplitSelect,
    cv_fold_split o cfg st.sequences hlen (candidates cfg)
      (st.X, st.lengths) (⊥, none)]

/-- C5 (amended: on a fold's fit failure that fold is skipped and the
traversal continues; on a held-out scoring failure the remaining folds of that
candidate are abandoned, keeping the updates made so far): the CV selector
follows the 3-fold non-shuffled deterministic split path — which depends only
on the word's sequence collection — exactly when the word has more than 2
training sequences, and the no-split full-data fit-and-score fallback (which
leaves the stored flattened representation untouched) exactly when it has 2 or
fewer. -/
theorem C5_cv_paths {α : Type} (o : HMMOracle α) (cfg : Config)
    (st : SelectorState α) :
    (st.sequences.length ≤ 2 →
      SelectorCV.select o cfg st = (cvNoSplitSelect o cfg st.X st.lengths, st)) ∧
    (2 < st.sequences.length →
      (SelectorCV.select o cfg st).1 = cvSplitSelect o cfg st.sequences) := by
  constructor
  · intro hle
    exact cv_select_nosplit o cfg st (Nat.not_lt.mpr hle)
  · intro hlt
    exact cv_select_split o cfg st hlt

/-- Witness for C5: the split path at a word with three sequences. -/
theorem C5_witness :
    (SelectorCV.select exOracle cfg24 stCV3).1 =
      cvSplitSelect exOracle cfg24 stCV3.sequences :=
  (C5_cv_paths exOracle cfg24 stCV3).2 (by decide)

/-- Counterexample to C5 as stated: with one candidate and three sequences,
the first fold's held-out scoring fails; the source abandons the whole
candidate and returns None, while the claim's fold-skipping semantics would
still return a model fitted on the second fold. -/
theorem C5_counterexample :
    (SelectorCV.select exOracleCV cfg23 stCV3).1 = none ∧
    cvSelectClaimed exOracleCV cfg23 stCV3.sequences stCV3.X stCV3.lengths =
      some 2 := by
  constructor
  · rfl
  · rfl

/-- C8: re-running a selector on the state left behind by a first run yields
the same selection; the Constant, BIC and DIC selectors leave the state
untouched, and the CV selector's split path depends only on the (unchanged)
sequence collection, so a second call on the same instance returns the same
model even after the split path mutated the flattened representation. -/
theorem C8_select_idempotent {α : Type} (o : HMMOracle α) (cfg : Config)
    (st : SelectorState α) :
    (SelectorConstant.select o cfg ((SelectorConstant.select o cfg st).2)).1 =
      (SelectorConstant.select o cfg st).1 ∧
    (SelectorBIC.select o cfg ((SelectorBIC.select o cfg st).2)).1 =
      (SelectorBIC.select o cfg st).1 ∧
    (SelectorDIC.select o cfg ((SelectorDIC.select o cfg st).2)).1 =
      (SelectorDIC.select o cfg st).1 ∧
    (SelectorCV.select o cfg ((SelectorCV.select o cfg st).2)).1 =
      (SelectorCV.select o cfg st).1 := by
  refine ⟨rfl, rfl, rfl, ?_⟩
  by_cases hlen : 2 < st.sequences.length
  · have hseq : ((SelectorCV.select o cfg st).2).sequences = st.sequences := rfl
    have h2 : 2 < ((SelectorCV.select o cfg st).2).sequences.length := by
      rw [hseq]; exact hlen
    rw [cv_select_split o cfg _ h2, cv_select_split o cfg st hlen, hseq]
  · rw [cv_select_nosplit o cfg st hlen]
    rw [cv_select_nosplit o cfg st hlen]

lemma kfold3_ne_nil (n : Nat) : kfold3 n ≠ [] := by
  simp [kfold3, List.range_succ]

lemma cvLastFold_cons {α : Type} (o : HMMOracle α) (seed k : Nat) (seqs : Seqs)
    (tr te : List Nat) (rest : List (List Nat × List Nat)) :
    cvLastFold o seed k seqs ((tr, te) :: rest) =
      if (match base_model o seed k (combine_sequences tr seqs).1
            (combine_sequences tr seqs).2 with
          | none => false
          | some m =>
            match o.score m (combine_sequences te seqs).1
                (combine_sequences te seqs).2 with
            | .error _ => true
            | .ok _ => false) = true
      then some (tr, te)
      else
        match cvLastFold o seed k seqs rest with
        | none => some (tr, te)
        | some g => some g := rfl

lemma cvFoldLoop_state {α : Type} (o : HMMOracle α) (seed k : Nat) (seqs : Seqs) :
    ∀ (folds : List (List Nat × List Nat)) (xl : Mat × List Nat)
      (scores : List ℚ) (best : WithBot ℚ × Option α), folds ≠ [] →
      ∃ f, cvLastFold o seed k seqs folds = some f ∧ f ∈ folds ∧
        (cvFoldLoop o seed k seqs folds xl scores best).1 =
          combine_sequences f.1 seqs := by
  intro folds
  induction folds with
  | nil => intro xl scores best h; exact absurd rfl h
  | cons f rest ih =>
    intro xl scores best _
    obtain ⟨tr, te⟩ := f
    cases hbm : base_model o seed k (combine_sequences tr seqs).1
        (combine_sequences tr seqs).2 with
    | none =>
      cases rest with
      | nil =>
        refine ⟨(tr, te), ?_, List.mem_cons_self _ _, ?_⟩
        · simp [cvLastFold, hbm]
        · simp [cvFoldLoop, hbm]
      | cons f2 rest2 =>
        obtain ⟨g, hg, hgmem, hgx⟩ := ih (combine_sequences tr seqs) scores best (by simp)
        refine ⟨g, ?_, List.mem_cons_of_mem _ hgmem, ?_⟩
        · rw [cvLastFold_cons]
          simp only [hbm, hg]
          simp
        · simp only [cvFoldLoop, hbm]
          exact hgx
    | some mm =>
      cases hs : o.score mm (combine_sequences te seqs).1
          (combine_sequences te seqs).2 with
      | error e =>
        refine ⟨(tr, te), ?_, List.mem_cons_self _ _, ?_⟩
        · simp [cvLastFold, hbm, hs]
        · simp [cvFoldLoop, hbm, hs]
      | ok s =>
        cases rest with
        | nil =>
          refine ⟨(tr, te), ?_, List.mem_cons_self _ _, ?_⟩
          · simp [cvLastFold, hbm, hs]
          · simp [cvFoldLoop, hbm, hs]
        | cons f2 rest2 =>
          obtain ⟨g, hg, hgmem, hgx⟩ :=
            ih (combine_sequences tr seqs) (scores ++ [s])
              (if best.1 < (((scores ++ [s]).sum / (((scores ++ [s]).length : Nat) : ℚ) : ℚ) : WithBot ℚ)
                then ((((scores ++ [s]).sum / (((scores ++ [s]).length : Nat) : ℚ) : ℚ) : WithBot ℚ), some mm)
                else best)
              (by simp)
          refine ⟨g, ?_, List.mem_cons_of_mem _ hgmem, ?_⟩
          · rw [cvLastFold_cons]
            simp only [hbm, hs, hg]
            simp
          · simp only [cvFoldLoop, hbm, hs]
            exact hgx

lemma cv_fold_state {α : Type} (o : HMMOracle α) (cfg : Config) (seqs : Seqs)
    (hlen : 2 < seqs.length) :
    ∀ (ks : List Nat) (xl : Mat × List Nat) (best : WithBot ℚ × Option α)
      (klast : Nat), ks.getLast? = some klast →
      ∃ f, cvLastFold o cfg.random_state klast seqs (kfold3 seqs.length) = some f ∧
        f ∈ kfold3 seqs.length ∧
        (ks.foldl (cvCandidate o cfg seqs) (xl, best)).1 =
          combine_sequences f.1 seqs := by
  intro ks
  induction ks with
  | nil => intro xl best klast h; cases h
  | cons k ks ih =>
    intro xl best klast h
    rw [List.foldl_cons]
    cases ks with
    | nil =>
      have hk : k = klast := by
        have h2 : some k = some klast := h
        exact Option.some_inj.mp h2
      obtain ⟨f, hf, hfm, hfx⟩ := cvFoldLoop_state o cfg.random_state k seqs
        (kfold3 seqs.length) xl [] best (kfold3_ne_nil seqs.length)
      refine ⟨f, ?_, hfm, ?_⟩
      · rw [← hk]; exact hf
      · rw [List.foldl_nil]
        simp only [cvCandidate, if_pos hlen]
        exact hfx
    | cons k2 ks2 =>
      have hlast : (k2 :: ks2).getLast? = some klast := h
      exact ih (cvCandidate o cfg seqs (xl, best) k).1
        (cvCandidate o cfg seqs (xl, best) k).2 klast hlast

/-- C9: the Constant, BIC and DIC selectors leave the whole selector state
untouched; the CV selector never changes the shared word-to-sequences and
word-to-Xlengths mappings (nor the sequence collection), and after a run on a
word with more than 2 sequences and a non-empty candidate range its stored
`X`/`lengths` hold the concatenated training-fold representation of the last
fold processed for the last candidate, not the word's full representation. -/
theorem C9_frame_effects {α : Type} (o : HMMOracle α) (cfg : Config)
    (st : SelectorState α) :
    (SelectorConstant.select o cfg st).2 = st ∧
    (SelectorBIC.select o cfg st).2 = st ∧
    (SelectorDIC.select o cfg st).2 = st ∧
    (SelectorCV.select o cfg st).2.words = st.words ∧
    (SelectorCV.select o cfg st).2.hwords = st.hwords ∧
    (SelectorCV.select o cfg st).2.sequences = st.sequences ∧
    (2 < st.sequences.length →
      ∀ klast, (candidates cfg).getLast? = some klast →
      ∃ f, cvLastFold o cfg.random_state klast st.sequences
          (kfold3 st.sequences.length) = some f ∧
        f ∈ kfold3 st.sequences.length ∧
        (SelectorCV.select o cfg st).2.X = (combine_sequences f.1 st.sequences).1 ∧
        (SelectorCV.select o cfg st).2.lengths =
          (combine_sequences f.1 st.sequences).2) := by
  refine ⟨rfl, rfl, rfl, rfl, rfl, rfl, ?_⟩
  intro hlen klast hlast
  obtain ⟨f, hf, hfm, hfx⟩ := cv_fold_state o cfg st.sequences hlen (candidates cfg)
    (st.X, st.lengths) (⊥, none) klast hlast
  refine ⟨f, hf, hfm, ?_, ?_⟩
  · exact congrArg Prod.fst hfx
  · exact congrArg Prod.snd hfx

/-- Witness for C9: after the split path on a three-sequence word with
candidates {2, 3}, the stored representation is the training data of the last
processed fold. -/
theorem C9_witness :
    ∃ f, cvLastFold exOracle cfg24.random_state 3 stCV3.sequences
        (kfold3 stCV3.sequences.length) = some f ∧
      f ∈ kfold3 stCV3.sequences.length ∧
      (SelectorCV.select exOracle cfg24 stCV3).2.X =
        (combine_sequences f.1 stCV3.sequences).1 ∧
      (SelectorCV.select exOracle cfg24 stCV3).2.lengths =
        (combine_sequences f.1 stCV3.sequences).2 :=
  (C9_frame_effects exOracle cfg24 stCV3).2.2.2.2.2.2 (by decide) 3 (by decide)

end ASL
